import Mathlib

/-!
Verification development for the `lua-patterns` crate (Lua string patterns in
Rust).  Subjects and patterns are byte sequences, modelled as `List Nat`.

The crate's `src/lib.rs` (Pattern handle, gmatch / gsub / replacement layer)
and `src/error.rs` (error kinds and their diagnostic strings) are embedded
directly from the source.  The matching engine lives in the crate's
`pattern.rs` module (`str_check`, `str_match`, `LuaMatch`, `LUA_MAXCAPTURES`),
which only has its callers available here; those definitions are modelled
from the specification (validator §4.1, interpreter §4.2), which follows the
reference Lua 5.x matcher.
-/

/-- Error kinds, embedded from `src/error.rs` (`enum Error`).  The payload of
`InvalidCapture` is an `Option` of a small signed integer (`Option<i8>`). -/
inductive Error where
  | InvalidCapture (n : Option Int)
  | TooManyCaptures
  | UnfinishedCapture
  | NoOpenCapture
  | TooComplex
  | EndsWithPercent
  | MissingEndBracket
  | MissingBalanceArgs
  | MissingLBracketF
  | CapLen
deriving DecidableEq

/-- The diagnostic string of each error kind, embedded from
`impl fmt::Display for Error` in `src/error.rs`. -/
def Error.display : Error → String
  | .InvalidCapture (some n) => "invalid capture index %" ++ toString n
  | .InvalidCapture none => "invalid pattern capture"
  | .TooManyCaptures => "too many captures"
  | .UnfinishedCapture => "unfinished capture"
  | .NoOpenCapture => "no open capture"
  | .TooComplex => "pattern too complex"
  | .EndsWithPercent => "malformed pattern (ends with '%')"
  | .MissingEndBracket => "malformed pattern (missing ']')"
  | .MissingBalanceArgs => "malformed pattern (missing arguments to '%b')"
  | .MissingLBracketF => "missing '[' after '%f' in pattern"
  | .CapLen => "capture was unfinished or positional (this shouldn't happen..?)"

/-! ### ASCII character classes (spec §4.2: classes are defined against ASCII;
bytes ≥ 128 are never in a class and always in the uppercase complements). -/

def isdigitB (c : Nat) : Bool := 48 ≤ c && c ≤ 57

def islowerB (c : Nat) : Bool := 97 ≤ c && c ≤ 122

def isupperB (c : Nat) : Bool := 65 ≤ c && c ≤ 90

def isalphaB (c : Nat) : Bool := islowerB c || isupperB c

def isalnumB (c : Nat) : Bool := isalphaB c || isdigitB c

def isspaceB (c : Nat) : Bool := c == 32 || (9 ≤ c && c ≤ 13)

def iscntrlB (c : Nat) : Bool := c < 32 || c == 127

def isgraphB (c : Nat) : Bool := 33 ≤ c && c ≤ 126

def ispunctB (c : Nat) : Bool := isgraphB c && !isalnumB c

def isxdigitB (c : Nat) : Bool :=
  isdigitB c || (97 ≤ c && c ≤ 102) || (65 ≤ c && c ≤ 70)

/-- Class letter dispatch: `some` for one of the ten class letters (given in
lower case), `none` for any other byte. -/
def classLetterTest (l c : Nat) : Option Bool :=
  if l = 97 then some (isalphaB c)        -- a
  else if l = 99 then some (iscntrlB c)   -- c
  else if l = 100 then some (isdigitB c)  -- d
  else if l = 103 then some (isgraphB c)  -- g
  else if l = 108 then some (islowerB c)  -- l
  else if l = 112 then some (ispunctB c)  -- p
  else if l = 115 then some (isspaceB c)  -- s
  else if l = 117 then some (isupperB c)  -- u
  else if l = 119 then some (isalnumB c)  -- w
  else if l = 120 then some (isxdigitB c) -- x
  else none

/-- Modelled from the spec: does byte `c` belong to the `%cl` class?  Upper
case class letters complement their lower case class; any other escaped byte
matches only itself (spec §4.2 vocabulary table). -/
def match_class (cl c : Nat) : Bool :=
  let l := if isupperB cl then cl + 32 else cl
  match classLetterTest l c with
  | some r => if isupperB cl then !r else r
  | none => cl == c

/-! ### Pattern item scanning -/

/-- Modelled from the spec: scan the body of a `[set]` class, returning the
index one past the closing `]`.  The first member is consumed before `]` is
tested, so a leading `]` is a literal member; a `%x` escape consumes two
bytes (spec §4.1).  Runs on fuel; `patt.length + 1` always suffices. -/
def classEndSet (patt : List Nat) : Nat → Nat → Except Error Nat
  | 0, _ => .error .MissingEndBracket
  | fuel + 1, q =>
    match patt.get? q with
    | none => .error .MissingEndBracket
    | some c =>
      let q' := if c == 37 && q + 1 < patt.length then q + 2 else q + 1
      if patt.get? q' == some 93 then .ok (q' + 1) else classEndSet patt fuel q'

/-- Modelled from the spec: the index one past the single pattern item
starting at `p` — two bytes for a `%x` escape (a trailing `%` is malformed),
the whole bracket for a `[set]`, one byte otherwise. -/
def classEnd (patt : List Nat) (p : Nat) : Except Error Nat :=
  match patt.get? p with
  | none => .error .MissingEndBracket
  | some c =>
    if c == 37 then
      (if p + 1 < patt.length then .ok (p + 2) else .error .EndsWithPercent)
    else if c == 91 then
      classEndSet patt (patt.length + 1)
        (if patt.get? (p + 1) == some 94 then p + 2 else p + 1)
    else .ok (p + 1)

/-! ### Pattern validator (spec §4.1) -/

/-- Validator bookkeeping for one capture: still open, or already closed. -/
inductive VCap where
  | vopen
  | vclosed
deriving DecidableEq

/-- Close the most recently opened still-open capture, if any. -/
def closeLastV : List VCap → Option (List VCap)
  | [] => none
  | c :: cs =>
    match closeLastV cs with
    | some cs' => some (c :: cs')
    | none => match c with
      | .vopen => some (.vclosed :: cs)
      | .vclosed => none

/-- Modelled from the spec: the single forward scan of the pattern validator
(spec §4.1).  `caps` lists the captures seen so far in opening order; a
position capture `()` counts as a closed capture.  The capture capacity `mc`
counts slot 0, so user captures may number at most `mc - 1`.  Runs on fuel;
`patt.length + 1` always suffices since every step advances. -/
def checkLoop (mc : Nat) (patt : List Nat) : Nat → Nat → List VCap → Except Error Unit
  | 0, _, _ => .ok ()
  | fuel + 1, p, caps =>
    match patt.get? p with
    | none => if caps.contains .vopen then .error .UnfinishedCapture else .ok ()
    | some c =>
      if c == 40 then
        if patt.get? (p + 1) == some 41 then
          (if caps.length + 1 ≥ mc then .error .TooManyCaptures
           else checkLoop mc patt fuel (p + 2) (caps ++ [.vclosed]))
        else
          (if caps.length + 1 ≥ mc then .error .TooManyCaptures
           else checkLoop mc patt fuel (p + 1) (caps ++ [.vopen]))
      else if c == 41 then
        match closeLastV caps with
        | none => .error .NoOpenCapture
        | some caps' => checkLoop mc patt fuel (p + 1) caps'
      else if c == 37 then
        match patt.get? (p + 1) with
        | none => .error .EndsWithPercent
        | some c2 =>
          if c2 == 98 then
            match patt.get? (p + 2), patt.get? (p + 3) with
            | some _, some _ => checkLoop mc patt fuel (p + 4) caps
            | _, _ => .error .MissingBalanceArgs
          else if c2 == 102 then
            (if patt.get? (p + 2) == some 91 then
              match classEnd patt (p + 2) with
              | .error e => .error e
              | .ok ep => checkLoop mc patt fuel ep caps
             else .error .MissingLBracketF)
          else if 49 ≤ c2 && c2 ≤ 57 then
            (match caps.get? (c2 - 49) with
             | some .vclosed => checkLoop mc patt fuel (p + 2) caps
             | _ => .error (.InvalidCapture (some ((c2 : Int) - 48))))
          else if c2 == 48 then .error (.InvalidCapture (some 0))
          else checkLoop mc patt fuel (p + 2) caps
      else if c == 91 then
        match classEnd patt p with
        | .error e => .error e
        | .ok ep => checkLoop mc patt fuel ep caps
      else checkLoop mc patt fuel (p + 1) caps

/-- Modelled from the spec: the pattern validator `str_check` from the
crate's `pattern.rs` module — a single forward scan enforcing the rules of
spec §4.1, parameterised on the capture capacity `MAXCAPTURES`. -/
def str_check (mc : Nat) (patt : List Nat) : Except Error Unit :=
  checkLoop mc patt (patt.length + 1) 0 []

/-! ### Pattern interpreter (spec §4.2) -/

/-- The length field of an interpreter capture slot: still open, a position
capture, or closed with a byte length (spec §3, capture slot kinds). -/
inductive CapLenV where
  | unfinished
  | position
  | clen (n : Nat)
deriving DecidableEq

/-- An interpreter capture: a start offset into the subject plus its
length/kind field (spec §3). -/
structure Capture where
  start : Nat
  len : CapLenV
deriving DecidableEq

/-- The fixed context of one match run: subject bytes, pattern bytes and the
capture capacity. -/
structure MS where
  src : List Nat
  patt : List Nat
  maxcaptures : Nat

/-- `&subject[a..b]` as a total function on byte lists. -/
def extractR (l : List Nat) (a b : Nat) : List Nat := (l.take b).drop a

/-- Modelled from the spec: the recursion-depth bound of the interpreter
(Lua's `MAXCCALLS`); exceeding it fails the match with `TooComplex`
(spec §4.2, bounded recursion). -/
def MAXCCALLS : Nat := 200

/-- Scan of a `[set]` body for membership of byte `c`.  `ec` is the index of
the closing `]`; handles `%x` escapes and `a-z` ranges (spec §4.2).  Fuel
`patt.length + 1` always suffices. -/
def bracketScan (patt : List Nat) (c ec : Nat) : Nat → Nat → Bool
  | 0, _ => false
  | fuel + 1, q =>
    if q ≥ ec then false
    else
      match patt.get? q with
      | none => false
      | some b =>
        if b == 37 then
          match patt.get? (q + 1) with
          | some cl => if match_class cl c then true else bracketScan patt c ec fuel (q + 2)
          | none => false
        else if patt.get? (q + 1) == some 45 && q + 2 < ec then
          match patt.get? (q + 2) with
          | some hi => if b ≤ c && c ≤ hi then true else bracketScan patt c ec fuel (q + 3)
          | none => false
        else if b == c then true
        else bracketScan patt c ec fuel (q + 1)

/-- Modelled from the spec: membership of byte `c` in the class set whose `[`
is at index `p` and whose `]` is at index `ec`; a leading `^` complements the
set (spec §4.2, class membership). -/
def matchbracketclass (patt : List Nat) (c p ec : Nat) : Bool :=
  if patt.get? (p + 1) == some 94 then
    !(bracketScan patt c ec (patt.length + 1) (p + 2))
  else
    bracketScan patt c ec (patt.length + 1) (p + 1)

/-- Modelled from the spec: does the single pattern item at `p` (whose end is
`ep`) match the subject byte at `s`?  False at end of subject (spec §4.2). -/
def singlematch (ms : MS) (s p ep : Nat) : Bool :=
  match ms.src.get? s with
  | none => false
  | some c =>
    match ms.patt.get? p with
    | some 46 => true                   -- '.'
    | some 37 =>                        -- '%x'
      (match ms.patt.get? (p + 1) with
       | some cl => match_class cl c
       | none => false)
    | some 91 => matchbracketclass ms.patt c p (ep - 1)  -- '[set]'
    | some b => b == c                  -- literal
    | none => false

/-- The scan of `%b xy`: maintain a balance counter from `s`, return the
index one past the byte that balances the opener (spec §4.2).  Fuel
`src.length + 1` always suffices. -/
def balanceLoop (src : List Nat) (bx ex : Nat) : Nat → Nat → Nat → Option Nat
  | 0, _, _ => none
  | fuel + 1, s, cont =>
    match src.get? s with
    | none => none
    | some c =>
      if c == ex then
        (if cont == 1 then some (s + 1) else balanceLoop src bx ex fuel (s + 1) (cont - 1))
      else if c == bx then balanceLoop src bx ex fuel (s + 1) (cont + 1)
      else balanceLoop src bx ex fuel (s + 1) cont

/-- Modelled from the spec: `%b xy` — the subject byte at `s` must equal the
opener `x` (at pattern index `p`), then scan forward with a balance counter
(spec §4.2). -/
def matchbalance (ms : MS) (s p : Nat) : Option Nat :=
  match ms.patt.get? p, ms.patt.get? (p + 1) with
  | some bx, some ex =>
    (match ms.src.get? s with
     | some c => if c == bx then balanceLoop ms.src bx ex (ms.src.length + 1) (s + 1) 1 else none
     | none => none)
  | _, _ => none

/-- Modelled from the spec: back-reference `%n` (digit value `n`): slot `n`
must exist and be closed; its bytes are compared literally against the
subject at `s` (spec §4.2).  A reference to a missing or open capture is an
`InvalidCapture` runtime error; a position capture never matches. -/
def match_capture (ms : MS) (caps : List Capture) (s n : Nat) : Except Error (Option Nat) :=
  if n == 0 then .error (.InvalidCapture (some 0))
  else
    match caps.get? (n - 1) with
    | none => .error (.InvalidCapture (some (n : Int)))
    | some cap =>
      match cap.len with
      | .unfinished => .error (.InvalidCapture (some (n : Int)))
      | .position => .ok none
      | .clen L =>
        if s + L ≤ ms.src.length && extractR ms.src cap.start (cap.start + L) == extractR ms.src s (s + L)
        then .ok (some (s + L))
        else .ok none

/-- Close the most recently opened still-unfinished capture at subject index
`s`, recording its length (spec §4.2, close capture). -/
def close_last (caps : List Capture) (s : Nat) : Option (List Capture) :=
  match caps with
  | [] => none
  | c :: cs =>
    match close_last cs s with
    | some cs' => some (c :: cs')
    | none =>
      match c.len with
      | .unfinished => some ({ c with len := .clen (s - c.start) } :: cs)
      | _ => none

/-- Return the first success among the alternatives, propagating errors. -/
def orTry (r : Except Error (Option α)) (alt : Unit → Except Error (Option α)) :
    Except Error (Option α) :=
  match r with
  | .error e => .error e
  | .ok (some x) => .ok (some x)
  | .ok none => alt ()

/-- Greedy backtracking: try `f i`, `f (i-1)`, …, `f 0`, returning the first
success (the backtracking loop of `max_expand`, spec §4.2). -/
def tryFrom (f : Nat → Except Error (Option α)) : Nat → Except Error (Option α)
  | 0 => f 0
  | i + 1 => orTry (f (i + 1)) (fun _ => tryFrom f i)

/-- Lazy expansion: try `f i`; on failure extend by one item while `ext i`
holds (the loop of `min_expand`, spec §4.2).  Fuel `src.length + 1` always
suffices in our uses since `ext` fails at the end of the subject. -/
def minTry (f : Nat → Except Error (Option α)) (ext : Nat → Bool) :
    Nat → Nat → Except Error (Option α)
  | 0, i => f i
  | fuel + 1, i =>
    match f i with
    | .error e => .error e
    | .ok (some r) => .ok (some r)
    | .ok none => if ext i then minTry f ext fuel (i + 1) else .ok none

/-- The number of consecutive subject positions from `s` matched by the
single item at `p` (the counting loop of `max_expand`, spec §4.2).  Fuel
`src.length + 1` always suffices. -/
def countSingles (ms : MS) (p ep : Nat) : Nat → Nat → Nat
  | 0, _ => 0
  | fuel + 1, s =>
    if singlematch ms s p ep then countSingles ms p ep fuel (s + 1) + 1 else 0

/-- Is the optional pattern byte an ASCII digit? -/
def isDigitOpt : Option Nat → Bool
  | some c => 48 ≤ c && c ≤ 57
  | none => false

/-- Modelled from the spec: one dispatch step of the recursive matcher
`match(s_idx, p_idx)` of spec §4.2, with the recursive call abstracted as
`rec`.  Returns `ok (some (e, caps))` with the match's end offset and
capture list, `ok none` for "no match", or a runtime error.  The capture
list is threaded functionally, so state rollback on backtracking (spec §4.2)
is automatic. -/
def do_match_step (ms : MS)
    (rec : List Capture → Nat → Nat → Except Error (Option (Nat × List Capture)))
    (caps : List Capture) (s p : Nat) : Except Error (Option (Nat × List Capture)) :=
    match ms.patt.get? p with
    | none => .ok (some (s, caps))
    | some c =>
      if c == 40 then                                   -- '(' open capture
        if ms.patt.get? (p + 1) == some 41 then         -- '()' position capture
          (if caps.length + 1 ≥ ms.maxcaptures then .error .TooManyCaptures
           else rec (caps ++ [⟨s, .position⟩]) s (p + 2))
        else
          (if caps.length + 1 ≥ ms.maxcaptures then .error .TooManyCaptures
           else rec (caps ++ [⟨s, .unfinished⟩]) s (p + 1))
      else if c == 41 then                              -- ')' close capture
        match close_last caps s with
        | none => .error (.InvalidCapture none)
        | some caps' => rec caps' s (p + 1)
      else if c == 36 && p + 1 == ms.patt.length then   -- '$' at pattern end
        (if s == ms.src.length then .ok (some (s, caps)) else .ok none)
      else if c == 37 && ms.patt.get? (p + 1) == some 98 then  -- '%b'
        (match matchbalance ms s (p + 2) with
         | some s2 => rec caps s2 (p + 4)
         | none => .ok none)
      else if c == 37 && ms.patt.get? (p + 1) == some 102 then -- '%f'
        (if ms.patt.get? (p + 2) == some 91 then
           (match classEnd ms.patt (p + 2) with
            | .error e => .error e
            | .ok ep =>
              let prev := if s == 0 then 0 else ms.src.getD (s - 1) 0
              let curr := ms.src.getD s 0
              if !matchbracketclass ms.patt prev (p + 2) (ep - 1) &&
                  matchbracketclass ms.patt curr (p + 2) (ep - 1)
              then rec caps s ep
              else .ok none)
         else .error .MissingLBracketF)
      else if c == 37 && isDigitOpt (ms.patt.get? (p + 1)) then -- '%n' back-reference
        (match match_capture ms caps s ((ms.patt.get? (p + 1)).getD 0 - 48) with
         | .error e => .error e
         | .ok (some s2) => rec caps s2 (p + 2)
         | .ok none => .ok none)
      else                                              -- single item + quantifier
        match classEnd ms.patt p with
        | .error e => .error e
        | .ok ep =>
          if ms.patt.get? ep == some 63 then            -- '?'
            (if singlematch ms s p ep then
              orTry (rec caps (s + 1) (ep + 1)) (fun _ => rec caps s (ep + 1))
            else rec caps s (ep + 1))
          else if ms.patt.get? ep == some 43 then       -- '+'
            (if singlematch ms s p ep then
              tryFrom (fun i => rec caps (s + 1 + i) (ep + 1))
                (countSingles ms p ep (ms.src.length + 1) (s + 1))
            else .ok none)
          else if ms.patt.get? ep == some 42 then       -- '*'
            tryFrom (fun i => rec caps (s + i) (ep + 1))
              (countSingles ms p ep (ms.src.length + 1) s)
          else if ms.patt.get? ep == some 45 then       -- '-'
            minTry (fun j => rec caps j (ep + 1))
              (fun j => singlematch ms j p ep) (ms.src.length + 1) s
          else
            if singlematch ms s p ep then rec caps (s + 1) ep
            else .ok none


/-- Modelled from the spec: the recursive matcher, running `do_match_step`
under a depth budget.  Every step consumes one unit; exhausting the budget
is the `TooComplex` condition (spec §4.2, bounded recursion). -/
def do_match (ms : MS) : Nat → List Capture → Nat → Nat → Except Error (Option (Nat × List Capture))
  | 0, _, _, _ => .error .TooComplex
  | d + 1, caps, s, p => do_match_step ms (do_match ms d) caps s p

/-- An entry of the pattern handle's capture table: two byte offsets into the
subject (the `LuaMatch` output type of `pattern.rs`; `stop` is the source's
`end` field). -/
structure LuaMatch where
  start : Nat
  stop : Nat
deriving DecidableEq

/-- Modelled from the spec: the anchor loop — try offsets `0, 1, …, len`
in order with a fresh depth budget each, returning the first success
(spec §4.2, top-level algorithm).  Fuel `src.length + 1` always suffices. -/
def matchLoop (ms : MS) : Nat → Nat → Except Error (Option (Nat × Nat × List Capture))
  | 0, _ => .ok none
  | fuel + 1, s =>
    match do_match ms MAXCCALLS [] s 0 with
    | .error e => .error e
    | .ok (some (e, caps)) => .ok (some (s, e, caps))
    | .ok none => if s < ms.src.length then matchLoop ms fuel (s + 1) else .ok none

/-- Modelled from the spec: the search for the leftmost match.  A pattern
beginning with `^` gets one anchored attempt at offset 0 (with the pattern
cursor past the `^`); otherwise all offsets are tried in order. -/
def searchMatch (ms : MS) : Except Error (Option (Nat × Nat × List Capture)) :=
  if ms.patt.head? == some 94 then
    match do_match ms MAXCCALLS [] 0 1 with
    | .error e => .error e
    | .ok (some (e, caps)) => .ok (some (0, e, caps))
    | .ok none => .ok none
  else
    matchLoop ms (ms.src.length + 1) 0

/-- Modelled from the spec: convert one interpreter capture to an output
slot.  A closed capture becomes `[start, start+len)`; a position capture
stores its 0-based offset in both fields (its value is the 1-based position
`start + 1`, spec §3); an unfinished capture is the `CapLen` condition. -/
def capOut : Capture → Except Error LuaMatch
  | ⟨_, .unfinished⟩ => .error .CapLen
  | ⟨st, .position⟩ => .ok ⟨st, st⟩
  | ⟨st, .clen L⟩ => .ok ⟨st, st + L⟩

/-- `mapM` over `Except`, written out for easy induction. -/
def mapME (f : α → Except Error β) : List α → Except Error (List β)
  | [] => .ok []
  | a :: as =>
    match f a with
    | .error e => .error e
    | .ok b =>
      match mapME f as with
      | .error e => .error e
      | .ok bs => .ok (b :: bs)

/-- Overwrite the first `new.length` slots of the capture table, keeping the
rest (the interpreter writes only slots `0..n_match`). -/
def writeSlots (new old : List LuaMatch) : List LuaMatch := new ++ old.drop new.length

/-- Modelled from the spec: `str_match` from the crate's `pattern.rs` —
run the matcher of subject `src` against pattern `patt`, writing the capture
table and returning the match count `n_match` (0 on no match, otherwise
1 + number of user captures), or a runtime error (spec §4.2, §6). -/
def str_match (mc : Nat) (src patt : List Nat) (mm0 : List LuaMatch) :
    Except Error (Nat × List LuaMatch) :=
  match searchMatch ⟨src, patt, mc⟩ with
  | .error e => .error e
  | .ok none => .ok (0, mm0)
  | .ok (some (st, e, caps)) =>
    match mapME capOut caps with
    | .error e2 => .error e2
    | .ok user => .ok (1 + caps.length, writeSlots (⟨st, e⟩ :: user) mm0)

/-! ### The pattern handle (`src/lib.rs`) -/

/-- Embedded from `src/lib.rs`: `struct Pattern` — borrowed pattern bytes, a
fixed-size capture table of `MAXCAPTURES` slots (here carried as the
`maxcaptures` field), and the match count of the most recent match. -/
structure Pattern where
  patt : List Nat
  maxcaptures : Nat
  /-- The source names this field `matches`, which Lean reserves. -/
  mtable : List LuaMatch
  n_match : Nat
deriving DecidableEq

/-- Embedded from `src/lib.rs`: `Pattern::try_from_bytes` — validate once,
then build the handle with a zero-initialised capture table. -/
def Pattern.try_from_bytes (mc : Nat) (bytes : List Nat) : Except Error Pattern :=
  match str_check mc bytes with
  | .error e => .error e
  | .ok _ => .ok ⟨bytes, mc, List.replicate mc ⟨0, 0⟩, 0⟩

/-- Embedded from `src/lib.rs`: `Pattern::matches_bytes` — run `str_match`,
store the match count, and return whether it is positive.  The source
unwraps the interpreter's `Result` with `expect`, so a runtime error aborts
(panics); `none` models that abort. -/
def Pattern.matches_bytes (P : Pattern) (s : List Nat) : Option (Pattern × Bool) :=
  match str_match P.maxcaptures s P.patt P.mtable with
  | .error _ => none
  | .ok (n, mm) => some ({ P with n_match := n, mtable := mm }, decide (0 < n))

/-- Embedded from `src/lib.rs`: `Pattern::capture` — the output range of
slot `i` (slots beyond those written read the initialised table). -/
def Pattern.capture (P : Pattern) (i : Nat) : LuaMatch := P.mtable.getD i ⟨0, 0⟩

/-- Embedded from `src/lib.rs`: `Pattern::first_capture` — slot 1 when the
last match had at least one user capture, else slot 0. -/
def Pattern.first_capture (P : Pattern) : LuaMatch :=
  P.capture (if 1 < P.n_match then 1 else 0)

/-- One step of the `GMatch` iterator, embedded from `src/lib.rs`
(`impl Iterator for GMatch`): either the match call aborts, or the iterator
is done, or it yields `text[first_capture]` and continues on
`text[range.end ..]`. -/
inductive StepRes where
  | aborted
  | done (P' : Pattern)
  | yield (P' : Pattern) (item rest : List Nat)
deriving DecidableEq

/-- Embedded from `src/lib.rs`: `GMatch::next`. -/
def gmatchNext (P : Pattern) (text : List Nat) : StepRes :=
  match P.matches_bytes text with
  | none => .aborted
  | some (P', false) => .done P'
  | some (P', true) =>
    .yield P' (extractR text P'.first_capture.start P'.first_capture.stop)
      (text.drop (P'.capture 0).stop)

/-- Embedded from `src/lib.rs`: `Pattern::match_maybe` — `text[first_capture]`
on a match, nothing otherwise (outer `none` models the abort). -/
def matchMaybe (P : Pattern) (text : List Nat) : Option (Pattern × Option (List Nat)) :=
  match P.matches_bytes text with
  | none => none
  | some (P', false) => some (P', none)
  | some (P', true) =>
    some (P', some (extractR text P'.first_capture.start P'.first_capture.stop))

/-! ### Replacement compiler and `gsub` (`src/lib.rs`) -/

/-- Embedded from `src/lib.rs`: `enum Subst` — a literal run or a capture
reference. -/
inductive Subst where
  | Text (s : List Nat)
  | Capture (i : Nat)
deriving DecidableEq

/-- The meta-pattern `"%%([%%%d])"` used by `generate_gsub_patterns`. -/
def metaPatt : List Nat := [37, 37, 40, 91, 37, 37, 37, 100, 93, 41]

/-- `capture.parse::<usize>()` on the captured digits. -/
def parseDigits (ds : List Nat) : Nat := ds.foldl (fun a c => a * 10 + (c - 48)) 0

/-- The template-scanning loop of `generate_gsub_patterns` (`src/lib.rs`).
`none` models an abort or non-termination of the source loop; every match of
the meta-pattern is two bytes wide, so fuel `slice.length + 1` is exact. -/
def genLoop : Nat → Pattern → List Nat → List Subst → Option (List Subst)
  | 0, _, _, _ => none
  | fuel + 1, m, slice, acc =>
    match m.matches_bytes slice with
    | none => none
    | some (_, false) => some (acc ++ [Subst.Text slice])
    | some (m', true) =>
      let all := m'.capture 0
      let before := slice.take all.start
      let acc1 := if before.isEmpty then acc else acc ++ [Subst.Text before]
      let cap := extractR slice (m'.capture 1).start (m'.capture 1).stop
      let acc2 := if cap == [37] then acc1 ++ [Subst.Text [37]]
                  else acc1 ++ [Subst.Capture (parseDigits cap)]
      genLoop fuel m' (slice.drop all.stop) acc2

/-- Embedded from `src/lib.rs`: `generate_gsub_patterns` — compile a
replacement template into literal runs and capture references using the
meta-pattern (with capture capacity 2); `%%` stands for a literal `%`.
The outer `Option` models the source's abort/non-termination. -/
def generate_gsub_patterns (repl : List Nat) : Option (Except Error (List Subst)) :=
  match Pattern.try_from_bytes 2 metaPatt with
  | .error e => some (.error e)
  | .ok m =>
    match genLoop (repl.length + 1) m repl [] with
    | none => none
    | some rs => some (.ok rs)

/-- The replacement-application loop shared by `Pattern::gsub` and
`Substitute::subst` (`src/lib.rs`): concatenate literal runs and the capture
ranges of the most recent match on `text`. -/
def substItems (repl : List Subst) (P : Pattern) (text : List Nat) : List Nat :=
  repl.foldl
    (fun acc r =>
      acc ++ match r with
        | .Text s => s
        | .Capture i => extractR text (P.capture i).start (P.capture i).stop)
    []

/-- Embedded from `src/lib.rs`: `struct Substitute` — a compiled template. -/
structure Substitute where
  repl : List Subst
deriving DecidableEq

/-- Embedded from `src/lib.rs`: `Substitute::new`. -/
def Substitute.new (repl : List Nat) : Option (Except Error Substitute) :=
  match generate_gsub_patterns repl with
  | none => none
  | some (.error e) => some (.error e)
  | some (.ok rs) => some (.ok ⟨rs⟩)

/-- Embedded from `src/lib.rs`: `Substitute::subst`. -/
def Substitute.subst (sub : Substitute) (P : Pattern) (text : List Nat) : List Nat :=
  substItems sub.repl P text

/-- Embedded from `src/lib.rs`: the `while self.matches(slice)` loop of
`Pattern::gsub` — append the prefix before the match, then the replacement,
and continue on `slice[range.end ..]`.  `none` models an abort of the match
call or non-termination of the loop; a terminating run makes at most one
step per remaining byte plus one, so fuel `text.length + 1` is exact. -/
def gsubLoop (repl : List Subst) : Nat → Pattern → List Nat → List Nat → Option (Pattern × List Nat)
  | 0, _, _, _ => none
  | fuel + 1, P, slice, acc =>
    match P.matches_bytes slice with
    | none => none
    | some (P', false) => some (P', acc ++ slice)
    | some (P', true) =>
      let all := P'.capture 0
      gsubLoop repl fuel P' (slice.drop all.stop)
        (acc ++ slice.take all.start ++ substItems repl P' slice)

/-- Embedded from `src/lib.rs`: `Pattern::gsub` — compile the template, then
run the substitution loop over successive leftmost matches. -/
def Pattern.gsub (P : Pattern) (text repl : List Nat) :
    Option (Except Error (Pattern × List Nat)) :=
  match generate_gsub_patterns repl with
  | none => none
  | some (.error e) => some (.error e)
  | some (.ok rs) =>
    match gsubLoop rs (text.length + 1) P text [] with
    | none => none
    | some r => some (.ok r)

/-! ### Semantic predicates and concrete instances used by the theorems -/

/-- Well-formedness of one interpreter capture relative to the current match:
it starts no earlier than the match start `lo`, no later than the current
subject cursor `hi`, and a closed capture also ends by `hi`. -/
def capIn (lo hi : Nat) (c : Capture) : Prop :=
  lo ≤ c.start ∧ c.start ≤ hi ∧ ∀ L, c.len = .clen L → c.start + L ≤ hi

/-- All captures of a list are well-formed relative to `lo`/`hi`. -/
def CapsWf (lo hi : Nat) (caps : List Capture) : Prop := ∀ c ∈ caps, capIn lo hi c

/-- Executable transcript check for the `gsub` loop: every successive
leftmost match of `P` on the remaining tail exists without aborting and is
non-zero-width.  Fuel `slice.length + 1` covers every terminating run. -/
def gsubAllNonZero : Nat → Pattern → List Nat → Bool
  | 0, _, _ => false
  | fuel + 1, P, slice =>
    match P.matches_bytes slice with
    | none => false
    | some (_, false) => true
    | some (P', true) =>
      decide ((P'.capture 0).start < (P'.capture 0).stop) &&
        gsubAllNonZero fuel P' (slice.drop (P'.capture 0).stop)

/-- The pattern handle for `"a*"` with capacity 8. -/
def PatStar : Pattern := ⟨[97, 42], 8, List.replicate 8 ⟨0, 0⟩, 0⟩

/-- `PatStar` after one (zero-width) match of `"a*"` against `"b"`. -/
def PatStar1 : Pattern := { PatStar with n_match := 1 }

/-- 201 copies of `"a*"` — a validated pattern whose match exceeds the
interpreter's depth budget. -/
def patt201 : List Nat := (List.replicate 201 [97, 42]).flatten

/-- The pattern handle for `patt201` with capacity 8. -/
def P201 : Pattern := ⟨patt201, 8, List.replicate 8 ⟨0, 0⟩, 0⟩

/-- The pattern handle for `"a"` with capacity 8. -/
def Pa : Pattern := ⟨[97], 8, List.replicate 8 ⟨0, 0⟩, 0⟩

/-- `Pa` after matching `"a"`. -/
def Pa1 : Pattern := { Pa with n_match := 1, mtable := ⟨0, 1⟩ :: List.replicate 7 ⟨0, 0⟩ }

/-- The pattern handle for `"(a)"` with capacity 8. -/
def Pcap : Pattern := ⟨[40, 97, 41], 8, List.replicate 8 ⟨0, 0⟩, 0⟩

/-- `Pcap` after matching `"ab"`: whole match and capture 1 are both
`[0, 1)`. -/
def PcapA : Pattern :=
  { Pcap with n_match := 2, mtable := ⟨0, 1⟩ :: ⟨0, 1⟩ :: List.replicate 6 ⟨0, 0⟩ }

/-- A handle for `"(a)"` with capture capacity 1: opening the capture at
match time is the interpreter's `TooManyCaptures` condition. -/
def Pbad : Pattern := ⟨[40, 97, 41], 1, [⟨0, 0⟩], 0⟩

/-- The freshly constructed handle for the meta-pattern of
`generate_gsub_patterns` (capacity 2, as in the source). -/
def metaHandle : Pattern := ⟨metaPatt, 2, List.replicate 2 ⟨0, 0⟩, 0⟩

/-! ## Theorems -/

/-- C3: each of the six test patterns fails validation with exactly the
error the specification lists (capture capacity 8, as in the crate's
`bad_patterns` test): `"%"` → EndsWithPercent, `"(dog%("` →
UnfinishedCapture, `"[%a%["` → MissingEndBracket, `"(()"` →
UnfinishedCapture, `"[%A"` → MissingEndBracket, `"(1) (2(3)%2)%1"` →
InvalidCapture 2. -/
theorem bad_patterns_errors :
    Pattern.try_from_bytes 8 [37] = .error .EndsWithPercent ∧
    Pattern.try_from_bytes 8 [40, 100, 111, 103, 37, 40] = .error .UnfinishedCapture ∧
    Pattern.try_from_bytes 8 [91, 37, 97, 37, 91] = .error .MissingEndBracket ∧
    Pattern.try_from_bytes 8 [40, 40, 41] = .error .UnfinishedCapture ∧
    Pattern.try_from_bytes 8 [91, 37, 65] = .error .MissingEndBracket ∧
    Pattern.try_from_bytes 8 [40, 49, 41, 32, 40, 50, 40, 51, 41, 37, 50, 41, 37, 49] =
      .error (.InvalidCapture (some 2)) :=
  ⟨rfl, rfl, rfl, rfl, rfl, rfl⟩

/-- C4 counterexample: the `CapLen` diagnostic is not the string the
specification's error table fixes — the source appends
" (this shouldn't happen..?)". -/
theorem caplen_display_ne_spec :
    Error.display .CapLen ≠ "capture was unfinished or positional" := by
  decide

/-- C4 amended: every error kind except `CapLen` displays exactly the
message of the specification's error table; `CapLen` displays that message
with the suffix " (this shouldn't happen..?)" appended. -/
theorem error_display_messages :
    (∀ n : Int, Error.display (.InvalidCapture (some n)) = "invalid capture index %" ++ toString n) ∧
    Error.display (.InvalidCapture none) = "invalid pattern capture" ∧
    Error.display .TooManyCaptures = "too many captures" ∧
    Error.display .UnfinishedCapture = "unfinished capture" ∧
    Error.display .NoOpenCapture = "no open capture" ∧
    Error.display .TooComplex = "pattern too complex" ∧
    Error.display .EndsWithPercent = "malformed pattern (ends with '%')" ∧
    Error.display .MissingEndBracket = "malformed pattern (missing ']')" ∧
    Error.display .MissingBalanceArgs = "malformed pattern (missing arguments to '%b')" ∧
    Error.display .MissingLBracketF = "missing '[' after '%f' in pattern" ∧
    Error.display .CapLen = "capture was unfinished or positional" ++ " (this shouldn't happen..?)" :=
  ⟨fun _ => rfl, rfl, rfl, rfl, rfl, rfl, rfl, rfl, rfl, rfl, rfl⟩

/-- C2 amended: the runtime interpreter errors are returned by the internal
`str_match`, but `Pattern::matches_bytes` unwraps that result with `expect`,
so any runtime error aborts (panics) instead of reaching the caller. -/
theorem str_match_error_panics (P : Pattern) (s : List Nat) (e : Error)
    (h : str_match P.maxcaptures s P.patt P.mtable = .error e) :
    P.matches_bytes s = none := by
  unfold Pattern.matches_bytes
  rw [h]

theorem str_match_error_panics_witness : Pbad.matches_bytes [97] = none :=
  str_match_error_panics Pbad [97] .TooManyCaptures rfl

set_option maxRecDepth 100000 in
/-- C2 counterexample: the 402-byte pattern `("a*")^201` validates, yet
matching it against the empty subject exhausts the interpreter's depth
budget: `str_match` returns the recoverable `TooComplex` error, and
`matches_bytes` aborts (panics) on it instead of surfacing it. -/
theorem too_complex_panics :
    Pattern.try_from_bytes 8 patt201 = .ok P201 ∧
    str_match P201.maxcaptures [] P201.patt P201.mtable = .error .TooComplex ∧
    P201.matches_bytes [] = none :=
  ⟨rfl, rfl, rfl⟩

/-- From the stuck state after a zero-width match, the `gsub` loop never
terminates, whatever fuel it is given. -/
theorem gsubLoop_stuck_zero_width (fuel : Nat) :
    ∀ acc, gsubLoop [Subst.Text [120]] fuel PatStar1 [98] acc = none := by
  induction fuel with
  | zero => intro _; rfl
  | succ f ih =>
    intro acc
    have hm : PatStar1.matches_bytes [98] = some (PatStar1, true) := rfl
    simp only [gsubLoop, hm]
    exact ih _

/-- C1: the code does not advance past zero-width matches.  `"a*"`
validates; against subject `"b"` the leftmost match is zero-width, the
gmatch step yields the empty item and leaves the remaining subject
unchanged (consuming zero bytes), and the `gsub` loop on the same state
never terminates — `gsub` with replacement `"x"` diverges. -/
theorem gsub_gmatch_zero_width_stuck :
    Pattern.try_from_bytes 8 [97, 42] = .ok PatStar ∧
    gmatchNext PatStar [98] = .yield PatStar1 [] [98] ∧
    PatStar.gsub [98] [120] = none ∧
    (∀ fuel acc, gsubLoop [Subst.Text [120]] fuel PatStar1 [98] acc = none) :=
  ⟨rfl, rfl, rfl, fun fuel acc => gsubLoop_stuck_zero_width fuel acc⟩

/-- C9: a call of the matches operation never changes the stored pattern
bytes (nor the capture capacity); only the capture table and the match
count are written. -/
theorem matches_preserves_pattern_bytes (P : Pattern) (s : List Nat) (P' : Pattern) (b : Bool)
    (h : P.matches_bytes s = some (P', b)) :
    P'.patt = P.patt ∧ P'.maxcaptures = P.maxcaptures := by
  unfold Pattern.matches_bytes at h
  cases hsm : str_match P.maxcaptures s P.patt P.mtable with
  | error e => rw [hsm] at h; cases h
  | ok r =>
    obtain ⟨n, mm⟩ := r
    rw [hsm] at h
    simp only [Option.some.injEq, Prod.mk.injEq] at h
    obtain ⟨hP, -⟩ := h
    rw [← hP]
    exact ⟨rfl, rfl⟩

theorem matches_preserves_pattern_bytes_witness :
    Pa1.patt = Pa.patt ∧ Pa1.maxcaptures = Pa.maxcaptures :=
  matches_preserves_pattern_bytes Pa [97] Pa1 true rfl

/-- C5: with a non-aborting interpreter run, the matches operation returns
true exactly when the search found a match, stores the interpreter's match
count and capture table, and on failure leaves `n_match = 0` and the
capture table untouched. -/
theorem matches_bytes_contract (P : Pattern) (s : List Nat) (n : Nat) (mm : List LuaMatch)
    (h : str_match P.maxcaptures s P.patt P.mtable = .ok (n, mm)) :
    P.matches_bytes s = some ({ P with n_match := n, mtable := mm }, decide (0 < n)) ∧
    (0 < n ↔ ∃ x, searchMatch ⟨s, P.patt, P.maxcaptures⟩ = .ok (some x)) ∧
    (n = 0 → mm = P.mtable) := by
  have h1 : P.matches_bytes s = some ({ P with n_match := n, mtable := mm }, decide (0 < n)) := by
    unfold Pattern.matches_bytes
    rw [h]
  refine ⟨h1, ?_⟩
  unfold str_match at h
  cases hs : searchMatch ⟨s, P.patt, P.maxcaptures⟩ with
  | error e => rw [hs] at h; cases h
  | ok o =>
    rw [hs] at h
    cases o with
    | none =>
      simp only [Except.ok.injEq, Prod.mk.injEq] at h
      obtain ⟨hn, hm⟩ := h
      subst hn
      refine ⟨⟨fun h0 => absurd h0 (by simp), ?_⟩, fun _ => hm.symm⟩
      rintro ⟨x, hx⟩
      cases hx
    | some trip =>
      obtain ⟨st, e2, caps⟩ := trip
      simp only [] at h
      cases hmu : mapME capOut caps with
      | error e3 => rw [hmu] at h; cases h
      | ok user =>
        rw [hmu] at h
        simp only [Except.ok.injEq, Prod.mk.injEq] at h
        obtain ⟨hn, -⟩ := h
        subst hn
        exact ⟨⟨fun _ => ⟨(st, e2, caps), rfl⟩, fun _ => by omega⟩, fun h0 => by omega⟩

theorem matches_bytes_contract_witness :
    Pa.matches_bytes [97] =
      some ({ Pa with n_match := 1, mtable := ⟨0, 1⟩ :: List.replicate 7 ⟨0, 0⟩ }, decide (0 < 1)) ∧
    (0 < 1 ↔ ∃ x, searchMatch ⟨[97], Pa.patt, Pa.maxcaptures⟩ = .ok (some x)) ∧
    (1 = 0 → (⟨0, 1⟩ :: List.replicate 7 ⟨0, 0⟩ : List LuaMatch) = Pa.mtable) :=
  matches_bytes_contract Pa [97] 1 (⟨0, 1⟩ :: List.replicate 7 ⟨0, 0⟩) rfl

/-- C10: a successful gmatch step yields the first user capture (slot 1)
when the match produced at least one user capture (`n_match > 1`) and the
whole match (slot 0) otherwise, together with the tail past the match end;
`match_maybe` obeys the same selection rule. -/
theorem first_capture_selection (P : Pattern) (t : List Nat) (P' : Pattern) (item rest : List Nat)
    (h : gmatchNext P t = .yield P' item rest) :
    (item = extractR t (P'.capture (if 1 < P'.n_match then 1 else 0)).start
        (P'.capture (if 1 < P'.n_match then 1 else 0)).stop ∧
     rest = t.drop (P'.capture 0).stop) ∧
    ∀ (Q : Pattern) (u : List Nat) (Q' : Pattern) (v : List Nat),
      matchMaybe Q u = some (Q', some v) →
      v = extractR u (Q'.capture (if 1 < Q'.n_match then 1 else 0)).start
        (Q'.capture (if 1 < Q'.n_match then 1 else 0)).stop := by
  constructor
  · unfold gmatchNext at h
    cases hm : P.matches_bytes t with
    | none => rw [hm] at h; cases h
    | some pb =>
      obtain ⟨P'', b⟩ := pb
      rw [hm] at h
      cases b
      · cases h
      · simp only [StepRes.yield.injEq] at h
        obtain ⟨hP, hi, hr⟩ := h
        subst hP
        exact ⟨hi.symm, hr.symm⟩
  · intro Q u Q' v hq
    unfold matchMaybe at hq
    cases hm : Q.matches_bytes u with
    | none => rw [hm] at hq; cases hq
    | some pb =>
      obtain ⟨Q'', b⟩ := pb
      rw [hm] at hq
      cases b
      · simp at hq
      · simp only [Option.some.injEq, Prod.mk.injEq] at hq
        obtain ⟨hQ, hv⟩ := hq
        subst hQ
        exact hv.symm

theorem first_capture_selection_witness :
    (([97] : List Nat) = extractR [97, 98] (PcapA.capture (if 1 < PcapA.n_match then 1 else 0)).start
        (PcapA.capture (if 1 < PcapA.n_match then 1 else 0)).stop ∧
     ([98] : List Nat) = [97, 98].drop (PcapA.capture 0).stop) ∧
    ∀ (Q : Pattern) (u : List Nat) (Q' : Pattern) (v : List Nat),
      matchMaybe Q u = some (Q', some v) →
      v = extractR u (Q'.capture (if 1 < Q'.n_match then 1 else 0)).start
        (Q'.capture (if 1 < Q'.n_match then 1 else 0)).stop :=
  first_capture_selection Pcap [97, 98] PcapA [97] [98] rfl

/-- The meta-pattern's first item (the escaped literal `%`) cannot match a
subject byte that is not `%`. -/
theorem singlematch_meta0 (src : List Nat) (hs : ∀ x ∈ src, x ≠ 37) (s : Nat) :
    singlematch ⟨src, metaPatt, 2⟩ s 0 2 = false := by
  cases hc : src.get? s with
  | none =>
    have hc' : src[s]? = none := by rw [← List.get?_eq_getElem?]; exact hc
    simp [singlematch, hc']
  | some c =>
    have hc' : src[s]? = some c := by rw [← List.get?_eq_getElem?]; exact hc
    have hne : (37 : Nat) ≠ c := fun e => hs c (List.get?_mem hc) e.symm
    simp [singlematch, hc', metaPatt, match_class, classLetterTest, isupperB, hne]

/-- On a subject without `%`, every attempt of the meta-pattern fails at
once (one unfolding of the matcher, no recursion). -/
theorem meta_fail_at (src : List Nat) (hs : ∀ x ∈ src, x ≠ 37) (d s : Nat) (caps : List Capture) :
    do_match ⟨src, metaPatt, 2⟩ (d + 1) caps s 0 = .ok none := by
  have hsm := singlematch_meta0 src hs s
  show (if singlematch ⟨src, metaPatt, 2⟩ s 0 2 then
          do_match ⟨src, metaPatt, 2⟩ d caps (s + 1) 2
        else .ok none) = .ok none
  rw [hsm]
  rfl

/-- On a subject without `%`, the anchor loop of the meta-pattern finds no
match at any offset. -/
theorem meta_fail_loop (src : List Nat) (hs : ∀ x ∈ src, x ≠ 37) :
    ∀ fuel s, matchLoop ⟨src, metaPatt, 2⟩ fuel s = .ok none := by
  intro fuel
  induction fuel with
  | zero => intro _; rfl
  | succ f ih =>
    intro s
    have hd : do_match ⟨src, metaPatt, 2⟩ MAXCCALLS [] s 0 = .ok none :=
      meta_fail_at src hs 199 s []
    simp only [matchLoop, hd]
    split
    · exact ih _
    · rfl

/-- On a subject without `%`, `str_match` with the meta-pattern reports no
match and leaves the capture table untouched. -/
theorem str_match_meta_none (src : List Nat) (hs : ∀ x ∈ src, x ≠ 37) (mm0 : List LuaMatch) :
    str_match 2 src metaPatt mm0 = .ok (0, mm0) := by
  unfold str_match searchMatch
  rw [meta_fail_loop src hs]
  rfl

/-- C8: compiling a replacement template with no `%` byte yields the single
literal item, and applying it to any pattern state reproduces the template
exactly. -/
theorem literal_template_roundtrip (T : List Nat) (h : (37 : Nat) ∉ T) :
    generate_gsub_patterns T = some (.ok [Subst.Text T]) ∧
    ∀ (P : Pattern) (text : List Nat), Substitute.subst ⟨[Subst.Text T]⟩ P text = T := by
  have hs : ∀ x ∈ T, x ≠ 37 := fun x hx e => h (e ▸ hx)
  constructor
  · have hm : metaHandle.matches_bytes T = some (metaHandle, false) := by
      unfold Pattern.matches_bytes
      dsimp only [metaHandle]
      rw [str_match_meta_none T hs]
      rfl
    have hg : genLoop (T.length + 1) metaHandle T [] = some [Subst.Text T] := by
      simp only [genLoop, hm, List.nil_append]
    unfold generate_gsub_patterns
    rw [show Pattern.try_from_bytes 2 metaPatt = .ok metaHandle from rfl]
    dsimp only
    rw [hg]
  · intro P text
    simp [Substitute.subst, substItems]

theorem literal_template_roundtrip_witness :
    generate_gsub_patterns [97, 98, 99] = some (.ok [Subst.Text [97, 98, 99]]) ∧
    ∀ (P : Pattern) (text : List Nat),
      Substitute.subst ⟨[Subst.Text [97, 98, 99]]⟩ P text = [97, 98, 99] :=
  literal_template_roundtrip [97, 98, 99] (by decide)

/-! ### Bounds of the interpreter's primitive steps -/

theorem get?_some_lt {l : List Nat} {n x : Nat} (h : l.get? n = some x) : n < l.length := by
  by_contra hn
  rw [List.get?_eq_none.mpr (Nat.le_of_not_lt hn)] at h
  cases h

theorem singlematch_lt {ms : MS} {s p ep : Nat} (h : singlematch ms s p ep = true) :
    s < ms.src.length := by
  unfold singlematch at h
  cases hc : ms.src.get? s with
  | none => rw [hc] at h; cases h
  | some c => exact get?_some_lt hc

theorem countSingles_bound (ms : MS) (p ep : Nat) :
    ∀ fuel s, countSingles ms p ep fuel s = 0 ∨
      s + countSingles ms p ep fuel s ≤ ms.src.length := by
  intro fuel
  induction fuel with
  | zero => intro s; exact Or.inl rfl
  | succ f ih =>
    intro s
    unfold countSingles
    by_cases hsm : singlematch ms s p ep = true
    · rw [if_pos hsm]
      have hlt := singlematch_lt hsm
      rcases ih (s + 1) with h0 | hle
      · right; rw [h0]; omega
      · right; omega
    · rw [if_neg hsm]
      exact Or.inl rfl

theorem balanceLoop_bound (src : List Nat) (bx ex : Nat) :
    ∀ fuel s cont j, balanceLoop src bx ex fuel s cont = some j →
      s ≤ j ∧ j ≤ src.length := by
  intro fuel
  induction fuel with
  | zero => intro s cont j h; cases h
  | succ f ih =>
    intro s cont j h
    unfold balanceLoop at h
    cases hc : src.get? s with
    | none => rw [hc] at h; cases h
    | some c =>
      rw [hc] at h
      dsimp only at h
      have hs := get?_some_lt hc
      by_cases h1 : (c == ex) = true
      · rw [if_pos h1] at h
        by_cases h2 : (cont == 1) = true
        · rw [if_pos h2] at h
          injection h with h'
          omega
        · rw [if_neg h2] at h
          have := ih (s + 1) _ j h
          omega
      · rw [if_neg h1] at h
        by_cases h2 : (c == bx) = true
        · rw [if_pos h2] at h
          have := ih (s + 1) _ j h
          omega
        · rw [if_neg h2] at h
          have := ih (s + 1) _ j h
          omega

theorem matchbalance_bound {ms : MS} {s p j : Nat} (h : matchbalance ms s p = some j) :
    s ≤ j ∧ j ≤ ms.src.length := by
  unfold matchbalance at h
  cases hb : ms.patt.get? p with
  | none => rw [hb] at h; cases h
  | some bx =>
    cases hb2 : ms.patt.get? (p + 1) with
    | none => rw [hb, hb2] at h; cases h
    | some ex =>
      rw [hb, hb2] at h
      dsimp only at h
      cases hc : ms.src.get? s with
      | none => rw [hc] at h; cases h
      | some c =>
        rw [hc] at h
        dsimp only at h
        by_cases h1 : (c == bx) = true
        · rw [if_pos h1] at h
          have := balanceLoop_bound ms.src bx ex (ms.src.length + 1) (s + 1) 1 j h
          omega
        · rw [if_neg h1] at h; cases h

theorem match_capture_bound {ms : MS} {caps : List Capture} {s n j : Nat}
    (h : match_capture ms caps s n = .ok (some j)) : s ≤ j ∧ j ≤ ms.src.length := by
  unfold match_capture at h
  by_cases h0 : (n == 0) = true
  · rw [if_pos h0] at h; cases h
  · rw [if_neg h0] at h
    cases hg : caps.get? (n - 1) with
    | none => rw [hg] at h; cases h
    | some cap =>
      rw [hg] at h
      dsimp only at h
      cases hl : cap.len with
      | unfinished => rw [hl] at h; cases h
      | position => rw [hl] at h; simp at h
      | clen L =>
        rw [hl] at h
        dsimp only at h
        by_cases hc : (decide (s + L ≤ ms.src.length) &&
            (extractR ms.src cap.start (cap.start + L) == extractR ms.src s (s + L))) = true
        · rw [if_pos hc] at h
          simp only [Except.ok.injEq, Option.some.injEq] at h
          have hle : s + L ≤ ms.src.length := of_decide_eq_true (Bool.and_elim_left hc)
          omega
        · rw [if_neg hc] at h; cases h

theorem tryFrom_some {α : Type} {f : Nat → Except Error (Option α)} :
    ∀ {n : Nat} {r : α}, tryFrom f n = .ok (some r) → ∃ i, i ≤ n ∧ f i = .ok (some r) := by
  intro n
  induction n with
  | zero => intro r h; exact ⟨0, le_refl 0, h⟩
  | succ m ih =>
    intro r h
    unfold tryFrom orTry at h
    cases hf : f (m + 1) with
    | error e => rw [hf] at h; cases h
    | ok o =>
      rw [hf] at h
      cases o with
      | some x =>
        refine ⟨m + 1, le_refl _, ?_⟩
        rw [hf]
        exact h
      | none =>
        obtain ⟨i, hi, hfi⟩ := ih h
        exact ⟨i, by omega, hfi⟩

theorem minTry_some {α : Type} {f : Nat → Except Error (Option α)} {ext : Nat → Bool} :
    ∀ {fuel i : Nat} {r : α}, minTry f ext fuel i = .ok (some r) →
      ∃ j, i ≤ j ∧ (j = i ∨ ext (j - 1) = true) ∧ f j = .ok (some r) := by
  intro fuel
  induction fuel with
  | zero => intro i r h; exact ⟨i, le_refl i, Or.inl rfl, h⟩
  | succ fu ih =>
    intro i r h
    unfold minTry at h
    cases hf : f i with
    | error e => rw [hf] at h; cases h
    | ok o =>
      rw [hf] at h
      cases o with
      | some x =>
        refine ⟨i, le_refl i, Or.inl rfl, ?_⟩
        rw [hf]
        exact h
      | none =>
        by_cases he : ext i = true
        · rw [if_pos he] at h
          obtain ⟨j, hj1, hj2, hj3⟩ := ih h
          refine ⟨j, by omega, ?_, hj3⟩
          right
          rcases hj2 with rfl | hj2
          · simpa using he
          · exact hj2
        · rw [if_neg he] at h; cases h

theorem capsWf_mono {lo hi hi' : Nat} {caps : List Capture} (h : hi ≤ hi')
    (hw : CapsWf lo hi caps) : CapsWf lo hi' caps := by
  intro c hc
  obtain ⟨h1, h2, h3⟩ := hw c hc
  exact ⟨h1, h2.trans h, fun L hL => (h3 L hL).trans h⟩

theorem close_last_wf {s lo : Nat} :
    ∀ {caps caps' : List Capture}, close_last caps s = some caps' →
      CapsWf lo s caps → CapsWf lo s caps' := by
  intro caps
  induction caps with
  | nil => intro caps' h _; cases h
  | cons c cs ih =>
    intro caps' h hw
    unfold close_last at h
    cases hcl : close_last cs s with
    | some cs2 =>
      rw [hcl] at h
      injection h with h'
      subst h'
      intro x hx
      rcases List.mem_cons.mp hx with rfl | hx
      · exact hw x (List.mem_cons_self _ _)
      · exact ih hcl (fun y hy => hw y (List.mem_cons_of_mem _ hy)) x hx
    | none =>
      rw [hcl] at h
      cases hlen : c.len with
      | unfinished =>
        rw [hlen] at h
        injection h with h'
        subst h'
        intro x hx
        rcases List.mem_cons.mp hx with rfl | hx
        · obtain ⟨h1, h2, _⟩ := hw c (List.mem_cons_self _ _)
          exact ⟨h1, h2, fun L hL => by
            injection hL with hL'
            show c.start + L ≤ s
            omega⟩
        · exact hw x (List.mem_cons_of_mem _ hx)
      | position => rw [hlen] at h; cases h
      | clen L => rw [hlen] at h; cases h

/-- The central invariant of the matcher: a successful run from subject
cursor `s` ends at some `e` with `s ≤ e ≤ len`, and every capture it
returns starts no earlier than the match start `lo` and lies within the
matched span (spec §8, invariant 1). -/
theorem do_match_wf (ms : MS) (lo : Nat) :
    ∀ (d : Nat) (caps : List Capture) (s p e : Nat) (caps' : List Capture),
      lo ≤ s → s ≤ ms.src.length → CapsWf lo s caps →
      do_match ms d caps s p = .ok (some (e, caps')) →
      s ≤ e ∧ e ≤ ms.src.length ∧ CapsWf lo e caps' := by
  intro d
  induction d with
  | zero => intro caps s p e caps' _ _ _ h; cases h
  | succ d ih =>
    intro caps s p e caps' hlo hs hw h
    rw [show do_match ms (d + 1) = do_match_step ms (do_match ms d) from rfl] at h
    unfold do_match_step at h
    cases hp : ms.patt.get? p with
    | none =>
      rw [hp] at h
      dsimp only at h
      simp only [Except.ok.injEq, Option.some.injEq, Prod.mk.injEq] at h
      obtain ⟨he, hcc⟩ := h
      subst he
      subst hcc
      exact ⟨le_refl _, hs, hw⟩
    | some c =>
      rw [hp] at h
      dsimp only at h
      by_cases h40 : (c == 40) = true
      · rw [if_pos h40] at h
        by_cases hpos : (ms.patt.get? (p + 1) == some 41) = true
        · rw [if_pos hpos] at h
          by_cases hcap : caps.length + 1 ≥ ms.maxcaptures
          · rw [if_pos hcap] at h; cases h
          · rw [if_neg hcap] at h
            refine ih _ _ _ _ _ hlo hs ?_ h
            intro x hx
            rcases List.mem_append.mp hx with hx | hx
            · exact hw x hx
            · rw [List.mem_singleton.mp hx]
              exact ⟨hlo, le_refl s, fun L hL => nomatch hL⟩
        · rw [if_neg hpos] at h
          by_cases hcap : caps.length + 1 ≥ ms.maxcaptures
          · rw [if_pos hcap] at h; cases h
          · rw [if_neg hcap] at h
            refine ih _ _ _ _ _ hlo hs ?_ h
            intro x hx
            rcases List.mem_append.mp hx with hx | hx
            · exact hw x hx
            · rw [List.mem_singleton.mp hx]
              exact ⟨hlo, le_refl s, fun L hL => nomatch hL⟩
      · rw [if_neg h40] at h
        by_cases h41 : (c == 41) = true
        · rw [if_pos h41] at h
          cases hcl : close_last caps s with
          | none => rw [hcl] at h; cases h
          | some caps2 =>
            rw [hcl] at h
            dsimp only at h
            exact ih _ _ _ _ _ hlo hs (close_last_wf hcl hw) h
        · rw [if_neg h41] at h
          by_cases h36 : (c == 36 && p + 1 == ms.patt.length) = true
          · rw [if_pos h36] at h
            by_cases hse : (s == ms.src.length) = true
            · rw [if_pos hse] at h
              simp only [Except.ok.injEq, Option.some.injEq, Prod.mk.injEq] at h
              obtain ⟨he, hcc⟩ := h
              subst he
              subst hcc
              exact ⟨le_refl _, hs, hw⟩
            · rw [if_neg hse] at h; simp at h
          · rw [if_neg h36] at h
            by_cases h98 : (c == 37 && ms.patt.get? (p + 1) == some 98) = true
            · rw [if_pos h98] at h
              cases hmb : matchbalance ms s (p + 2) with
              | none => rw [hmb] at h; simp at h
              | some s2 =>
                rw [hmb] at h
                dsimp only at h
                have hb := matchbalance_bound hmb
                have hr := ih _ _ _ _ _ (le_trans hlo hb.1) hb.2 (capsWf_mono hb.1 hw) h
                exact ⟨le_trans hb.1 hr.1, hr.2.1, hr.2.2⟩
            · rw [if_neg h98] at h
              by_cases h102 : (c == 37 && ms.patt.get? (p + 1) == some 102) = true
              · rw [if_pos h102] at h
                by_cases h91 : (ms.patt.get? (p + 2) == some 91) = true
                · rw [if_pos h91] at h
                  cases hce : classEnd ms.patt (p + 2) with
                  | error e2 => rw [hce] at h; cases h
                  | ok ep =>
                    rw [hce] at h
                    dsimp only at h
                    split at h <;> split at h <;>
                      first
                        | exact ih _ _ _ _ _ hlo hs hw h
                        | simp at h
                · rw [if_neg h91] at h; cases h
              · rw [if_neg h102] at h
                by_cases hdig : (c == 37 && isDigitOpt (ms.patt.get? (p + 1))) = true
                · rw [if_pos hdig] at h
                  cases hmc : match_capture ms caps s ((ms.patt.get? (p + 1)).getD 0 - 48) with
                  | error e2 => rw [hmc] at h; cases h
                  | ok o =>
                    rw [hmc] at h
                    cases o with
                    | none => dsimp only at h; simp at h
                    | some s2 =>
                      dsimp only at h
                      have hb := match_capture_bound hmc
                      have hr := ih _ _ _ _ _ (le_trans hlo hb.1) hb.2 (capsWf_mono hb.1 hw) h
                      exact ⟨le_trans hb.1 hr.1, hr.2.1, hr.2.2⟩
                · rw [if_neg hdig] at h
                  cases hce : classEnd ms.patt p with
                  | error e2 => rw [hce] at h; cases h
                  | ok ep =>
                    rw [hce] at h
                    dsimp only at h
                    by_cases h63 : (ms.patt.get? ep == some 63) = true
                    · rw [if_pos h63] at h
                      by_cases hsm : singlematch ms s p ep = true
                      · rw [if_pos hsm] at h
                        have hlt := singlematch_lt hsm
                        unfold orTry at h
                        cases hA : do_match ms d caps (s + 1) (ep + 1) with
                        | error e2 => rw [hA] at h; cases h
                        | ok o =>
                          rw [hA] at h
                          cases o with
                          | some r =>
                            dsimp only at h
                            simp only [Except.ok.injEq, Option.some.injEq] at h
                            subst h
                            have hr := ih _ _ _ _ _ (by omega) (by omega)
                              (capsWf_mono (by omega) hw) hA
                            exact ⟨by omega, hr.2.1, hr.2.2⟩
                          | none =>
                            dsimp only at h
                            exact ih _ _ _ _ _ hlo hs hw h
                      · rw [if_neg hsm] at h
                        exact ih _ _ _ _ _ hlo hs hw h
                    · rw [if_neg h63] at h
                      by_cases h43 : (ms.patt.get? ep == some 43) = true
                      · rw [if_pos h43] at h
                        by_cases hsm : singlematch ms s p ep = true
                        · rw [if_pos hsm] at h
                          have hlt := singlematch_lt hsm
                          obtain ⟨i, hi, hfi⟩ := tryFrom_some h
                          have hcount := countSingles_bound ms p ep (ms.src.length + 1) (s + 1)
                          have hle : s + 1 + i ≤ ms.src.length := by
                            rcases hcount with h0 | hsum <;> omega
                          have hr := ih _ _ _ _ _ (by omega) hle
                            (capsWf_mono (by omega) hw) hfi
                          exact ⟨by omega, hr.2.1, hr.2.2⟩
                        · rw [if_neg hsm] at h; simp at h
                      · rw [if_neg h43] at h
                        by_cases h42 : (ms.patt.get? ep == some 42) = true
                        · rw [if_pos h42] at h
                          obtain ⟨i, hi, hfi⟩ := tryFrom_some h
                          have hcount := countSingles_bound ms p ep (ms.src.length + 1) s
                          have hle : s + i ≤ ms.src.length := by
                            rcases hcount with h0 | hsum <;> omega
                          have hr := ih _ _ _ _ _ (by omega) hle
                            (capsWf_mono (by omega) hw) hfi
                          exact ⟨by omega, hr.2.1, hr.2.2⟩
                        · rw [if_neg h42] at h
                          by_cases h45 : (ms.patt.get? ep == some 45) = true
                          · rw [if_pos h45] at h
                            obtain ⟨j, hj1, hj2, hfj⟩ := minTry_some h
                            have hle : j ≤ ms.src.length := by
                              rcases hj2 with rfl | hext
                              · exact hs
                              · have := singlematch_lt hext
                                omega
                            have hr := ih _ _ _ _ _ (by omega) hle
                              (capsWf_mono hj1 hw) hfj
                            exact ⟨by omega, hr.2.1, hr.2.2⟩
                          · rw [if_neg h45] at h
                            by_cases hsm : singlematch ms s p ep = true
                            · rw [if_pos hsm] at h
                              have hlt := singlematch_lt hsm
                              have hr := ih _ _ _ _ _ (by omega) (by omega)
                                (capsWf_mono (by omega) hw) h
                              exact ⟨by omega, hr.2.1, hr.2.2⟩
                            · rw [if_neg hsm] at h; simp at h

theorem capsWf_nil {lo hi : Nat} : CapsWf lo hi [] :=
  fun x hx => absurd hx (List.not_mem_nil x)

theorem matchLoop_wf (ms : MS) :
    ∀ (fuel s st e : Nat) (caps : List Capture), s ≤ ms.src.length →
      matchLoop ms fuel s = .ok (some (st, e, caps)) →
      st ≤ e ∧ e ≤ ms.src.length ∧ CapsWf st e caps := by
  intro fuel
  induction fuel with
  | zero => intro s st e caps _ h; cases h
  | succ f ih =>
    intro s st e caps hs h
    unfold matchLoop at h
    cases hd : do_match ms MAXCCALLS [] s 0 with
    | error e2 => rw [hd] at h; cases h
    | ok o =>
      rw [hd] at h
      cases o with
      | some r =>
        obtain ⟨e2, caps2⟩ := r
        dsimp only at h
        simp only [Except.ok.injEq, Option.some.injEq, Prod.mk.injEq] at h
        obtain ⟨h1, h2, h3⟩ := h
        subst h1
        subst h2
        subst h3
        exact do_match_wf ms _ MAXCCALLS [] _ 0 _ _ (le_refl _) hs capsWf_nil hd
      | none =>
        dsimp only at h
        split at h
        · next hlt => exact ih _ _ _ _ (by omega) h
        · cases h

theorem searchMatch_wf (ms : MS) (st e : Nat) (caps : List Capture)
    (h : searchMatch ms = .ok (some (st, e, caps))) :
    st ≤ e ∧ e ≤ ms.src.length ∧ CapsWf st e caps := by
  unfold searchMatch at h
  split at h
  · cases hd : do_match ms MAXCCALLS [] 0 1 with
    | error e2 => rw [hd] at h; cases h
    | ok o =>
      rw [hd] at h
      cases o with
      | some r =>
        obtain ⟨e2, caps2⟩ := r
        dsimp only at h
        simp only [Except.ok.injEq, Option.some.injEq, Prod.mk.injEq] at h
        obtain ⟨h1, h2, h3⟩ := h
        subst h1
        subst h2
        subst h3
        exact do_match_wf ms _ MAXCCALLS [] _ 1 _ _ (le_refl _) (Nat.zero_le _) capsWf_nil hd
      | none => dsimp only at h; cases h
  · exact matchLoop_wf ms _ 0 st e caps (Nat.zero_le _) h

theorem capOut_bounds {lo hi : Nat} {c : Capture} {m : LuaMatch}
    (h : capOut c = .ok m) (hc : capIn lo hi c) :
    lo ≤ m.start ∧ m.start ≤ m.stop ∧ m.stop ≤ hi := by
  obtain ⟨st, len⟩ := c
  obtain ⟨h1, h2, h3⟩ := hc
  cases len with
  | unfinished => cases h
  | position =>
    injection h with h'
    subst h'
    exact ⟨h1, le_refl _, h2⟩
  | clen L =>
    injection h with h'
    subst h'
    exact ⟨h1, Nat.le_add_right st L, h3 L rfl⟩

theorem mapME_mem {α β : Type} {f : α → Except Error β} :
    ∀ {as : List α} {bs : List β}, mapME f as = .ok bs →
      ∀ b ∈ bs, ∃ a ∈ as, f a = .ok b := by
  intro as
  induction as with
  | nil =>
    intro bs h b hb
    injection h with h'
    subst h'
    cases hb
  | cons a as ih =>
    intro bs h b hb
    unfold mapME at h
    cases hf : f a with
    | error e => rw [hf] at h; cases h
    | ok b0 =>
      rw [hf] at h
      dsimp only at h
      cases hr : mapME f as with
      | error e => rw [hr] at h; cases h
      | ok bs0 =>
        rw [hr] at h
        dsimp only at h
        injection h with h'
        subst h'
        rcases List.mem_cons.mp hb with rfl | hb
        · exact ⟨a, List.mem_cons_self _ _, hf⟩
        · obtain ⟨a2, ha2, hfa2⟩ := ih hr b hb
          exact ⟨a2, List.mem_cons_of_mem _ ha2, hfa2⟩

theorem mapME_length {α β : Type} {f : α → Except Error β} :
    ∀ {as : List α} {bs : List β}, mapME f as = .ok bs → bs.length = as.length := by
  intro as
  induction as with
  | nil =>
    intro bs h
    injection h with h'
    subst h'
    rfl
  | cons a as ih =>
    intro bs h
    unfold mapME at h
    cases hf : f a with
    | error e => rw [hf] at h; cases h
    | ok b0 =>
      rw [hf] at h
      dsimp only at h
      cases hr : mapME f as with
      | error e => rw [hr] at h; cases h
      | ok bs0 =>
        rw [hr] at h
        dsimp only at h
        injection h with h'
        subst h'
        simp [ih hr]

theorem getD_mem {α : Type} (d : α) : ∀ (l : List α) (i : Nat), i < l.length → l.getD i d ∈ l := by
  intro l
  induction l with
  | nil => intro i h; exact absurd h (by simp)
  | cons a l ih =>
    intro i h
    cases i with
    | zero => exact List.mem_cons_self _ _
    | succ j => exact List.mem_cons_of_mem _ (ih j (by simpa using h))

theorem getD_append_lt {α : Type} (d : α) :
    ∀ (l l' : List α) (i : Nat), i < l.length → (l ++ l').getD i d = l.getD i d := by
  intro l
  induction l with
  | nil => intro l' i h; exact absurd h (by simp)
  | cons a l ih =>
    intro l' i h
    cases i with
    | zero => rfl
    | succ j => exact ih l' j (by simpa using h)

/-- Slot 0 of a freshly written capture table. -/
theorem capture_writeSlots_zero (a : LuaMatch) (user rest : List LuaMatch) :
    (writeSlots (a :: user) rest).getD 0 ⟨0, 0⟩ = a := rfl

/-- User slots of a freshly written capture table. -/
theorem capture_writeSlots_succ (a : LuaMatch) (user rest : List LuaMatch) (j : Nat)
    (hj : j < user.length) :
    (writeSlots (a :: user) rest).getD (j + 1) ⟨0, 0⟩ = user.getD j ⟨0, 0⟩ :=
  getD_append_lt _ user _ j hj

/-- The output contract of a successful `str_match` run: the table starts
with the whole-match slot `[st, e)`, `st ≤ e ≤ len`, and every user slot
lies within `[st, e]`. -/
theorem str_match_bounds {mc : Nat} {src patt : List Nat} {mm0 mm : List LuaMatch} {n : Nat}
    (h : str_match mc src patt mm0 = .ok (n, mm)) (hn : 0 < n) :
    ∃ st e user, mm = writeSlots (⟨st, e⟩ :: user) mm0 ∧ n = 1 + user.length ∧
      st ≤ e ∧ e ≤ src.length ∧
      ∀ m ∈ user, st ≤ m.start ∧ m.start ≤ m.stop ∧ m.stop ≤ e := by
  unfold str_match at h
  cases hs : searchMatch ⟨src, patt, mc⟩ with
  | error e2 => rw [hs] at h; cases h
  | ok o =>
    rw [hs] at h
    cases o with
    | none =>
      dsimp only at h
      simp only [Except.ok.injEq, Prod.mk.injEq] at h
      obtain ⟨hn0, -⟩ := h
      omega
    | some trip =>
      obtain ⟨st, e, caps⟩ := trip
      dsimp only at h
      cases hmu : mapME capOut caps with
      | error e2 => rw [hmu] at h; cases h
      | ok user =>
        rw [hmu] at h
        dsimp only at h
        simp only [Except.ok.injEq, Prod.mk.injEq] at h
        obtain ⟨hn1, hmm⟩ := h
        have hw := searchMatch_wf ⟨src, patt, mc⟩ st e caps hs
        have hlen := mapME_length hmu
        refine ⟨st, e, user, hmm.symm, by omega, hw.1, hw.2.1, ?_⟩
        intro m hm
        obtain ⟨c, hc, hco⟩ := mapME_mem hmu m hm
        exact capOut_bounds hco (hw.2.2 c hc)

/-- C6: after a successful match, slot 0 satisfies
`start ≤ end ≤ len(subject)`, and every user-capture slot in `1..n_match`
(position captures included, which store their 0-based offset in both
fields) lies within slot 0's range. -/
theorem capture_slots_within_match (P : Pattern) (s : List Nat) (P' : Pattern)
    (h : P.matches_bytes s = some (P', true)) :
    (P'.capture 0).start ≤ (P'.capture 0).stop ∧ (P'.capture 0).stop ≤ s.length ∧
    ∀ i, 1 ≤ i → i < P'.n_match →
      (P'.capture 0).start ≤ (P'.capture i).start ∧
      (P'.capture i).start ≤ (P'.capture i).stop ∧
      (P'.capture i).stop ≤ (P'.capture 0).stop := by
  unfold Pattern.matches_bytes at h
  cases hsm : str_match P.maxcaptures s P.patt P.mtable with
  | error e => rw [hsm] at h; cases h
  | ok r =>
    obtain ⟨n, mm⟩ := r
    rw [hsm] at h
    dsimp only at h
    simp only [Option.some.injEq, Prod.mk.injEq] at h
    obtain ⟨hP, hb⟩ := h
    obtain ⟨st, e, user, hmm, hn1, hste, helen, huser⟩ :=
      str_match_bounds hsm (of_decide_eq_true hb)
    subst hmm
    rw [← hP]
    simp only [Pattern.capture]
    rw [capture_writeSlots_zero]
    refine ⟨hste, helen, ?_⟩
    intro i h1i hin
    have hin' : i < n := hin
    obtain ⟨j, rfl⟩ : ∃ j, i = j + 1 := ⟨i - 1, by omega⟩
    have hj : j < user.length := by omega
    rw [capture_writeSlots_succ _ _ _ j hj]
    exact huser _ (getD_mem ⟨0, 0⟩ user j hj)

theorem capture_slots_within_match_witness :
    (PcapA.capture 0).start ≤ (PcapA.capture 0).stop ∧
    (PcapA.capture 0).stop ≤ ([97, 98] : List Nat).length ∧
    ∀ i, 1 ≤ i → i < PcapA.n_match →
      (PcapA.capture 0).start ≤ (PcapA.capture i).start ∧
      (PcapA.capture i).start ≤ (PcapA.capture i).stop ∧
      (PcapA.capture i).stop ≤ (PcapA.capture 0).stop :=
  capture_slots_within_match Pcap [97, 98] PcapA rfl

/-- Slot 0 of a successful `matches_bytes` call is a subrange of the
subject. -/
theorem matches_bytes_slot0 {P : Pattern} {s : List Nat} {P' : Pattern}
    (h : P.matches_bytes s = some (P', true)) :
    (P'.capture 0).start ≤ (P'.capture 0).stop ∧ (P'.capture 0).stop ≤ s.length := by
  unfold Pattern.matches_bytes at h
  cases hsm : str_match P.maxcaptures s P.patt P.mtable with
  | error e => rw [hsm] at h; cases h
  | ok r =>
    obtain ⟨n, mm⟩ := r
    rw [hsm] at h
    dsimp only at h
    simp only [Option.some.injEq, Prod.mk.injEq] at h
    obtain ⟨hP, hb⟩ := h
    obtain ⟨st, e, user, hmm, -, hste, helen, -⟩ :=
      str_match_bounds hsm (of_decide_eq_true hb)
    subst hmm
    rw [← hP]
    simp only [Pattern.capture]
    rw [capture_writeSlots_zero]
    exact ⟨hste, helen⟩

/-- Gluing a prefix back onto an extracted range. -/
theorem take_extract (l : List Nat) (a b : Nat) (hab : a ≤ b) :
    l.take a ++ extractR l a b = l.take b := by
  unfold extractR
  calc l.take a ++ (l.take b).drop a
      = (l.take b).take a ++ (l.take b).drop a := by
        rw [List.take_take, min_eq_left hab]
    _ = l.take b := List.take_append_drop _ _

/-- The compiled `"%0"` template renders as the whole-match range. -/
theorem substItems_percent0 (P : Pattern) (slice : List Nat) :
    substItems [Subst.Capture 0, Subst.Text []] P slice =
      extractR slice (P.capture 0).start (P.capture 0).stop := by
  simp [substItems]

/-- The `gsub` loop with the compiled `"%0"` template reproduces its input
whenever every successive match is non-zero-width. -/
theorem gsubLoop_percent0 :
    ∀ (fuel : Nat) (P : Pattern) (slice acc : List Nat),
      gsubAllNonZero fuel P slice = true → slice.length < fuel →
      ∃ Pf, gsubLoop [Subst.Capture 0, Subst.Text []] fuel P slice acc =
        some (Pf, acc ++ slice) := by
  intro fuel
  induction fuel with
  | zero => intro P slice acc hnz _; cases hnz
  | succ f ih =>
    intro P slice acc hnz hlen
    unfold gsubAllNonZero at hnz
    unfold gsubLoop
    cases hm : P.matches_bytes slice with
    | none => rw [hm] at hnz; cases hnz
    | some pb =>
      obtain ⟨P', b⟩ := pb
      rw [hm] at hnz
      cases b with
      | false => exact ⟨P', rfl⟩
      | true =>
        dsimp only at hnz ⊢
        rw [Bool.and_eq_true] at hnz
        obtain ⟨hwid, hrest⟩ := hnz
        have hwid' : (P'.capture 0).start < (P'.capture 0).stop := of_decide_eq_true hwid
        have hslot := matches_bytes_slot0 hm
        have hlen2 : (slice.drop (P'.capture 0).stop).length < f := by
          rw [List.length_drop]
          omega
        obtain ⟨Pf, hPf⟩ := ih P' (slice.drop (P'.capture 0).stop)
          (acc ++ slice.take (P'.capture 0).start ++
            extractR slice (P'.capture 0).start (P'.capture 0).stop) hrest hlen2
        rw [substItems_percent0, hPf]
        have hglue : slice.take (P'.capture 0).start ++
            (extractR slice (P'.capture 0).start (P'.capture 0).stop ++
              slice.drop (P'.capture 0).stop) = slice := by
          rw [← List.append_assoc, take_extract _ _ _ (le_of_lt hwid'),
            List.take_append_drop]
        rw [show acc ++ slice.take (P'.capture 0).start ++
            extractR slice (P'.capture 0).start (P'.capture 0).stop ++
            slice.drop (P'.capture 0).stop = acc ++ slice by
          simp only [List.append_assoc]
          rw [hglue]]
        exact ⟨Pf, rfl⟩

/-- C7: `gsub` with the template `"%0"` returns the subject unchanged
whenever every successive leftmost match on the remaining tail exists (no
abort) and is non-zero-width. -/
theorem gsub_percent0_identity (P : Pattern) (S : List Nat)
    (h : gsubAllNonZero (S.length + 1) P S = true) :
    ∃ P', P.gsub S [37, 48] = some (.ok (P', S)) := by
  obtain ⟨Pf, hPf⟩ := gsubLoop_percent0 (S.length + 1) P S [] h (by omega)
  refine ⟨Pf, ?_⟩
  unfold Pattern.gsub
  rw [show generate_gsub_patterns [37, 48] =
    some (.ok [Subst.Capture 0, Subst.Text []]) from rfl]
  dsimp only
  rw [hPf]
  simp

theorem gsub_percent0_identity_witness :
    ∃ P', Pa.gsub [97] [37, 48] = some (.ok (P', [97])) :=
  gsub_percent0_identity Pa [97] rfl
